import Mathlib

/-!
Verification of the dfinity_experiments consensus core (Go) against its
natural-language specification.  The Go sources are shallowly embedded:
pure functions become Lean functions, stateful methods become explicit
state passing, Go panics become `Option.none`, Go errors become `Except`.
Machine integers are modelled as `Int`/`Nat` with explicit reduction
modulo 2 ^ 64 where overflow matters.
-/

set_option maxRecDepth 100000

namespace Dfinity

/-! ## Byte-level utilities -/

/-- 32-bit right rotation. -/
def rotr32 (x n : Nat) : Nat := ((x >>> n) ||| (x <<< (32 - n))) % 4294967296

/-- 32-bit addition. -/
def add32 (a b : Nat) : Nat := (a + b) % 4294967296

/-- Big-endian bytes of a 32-bit word. -/
def be32Bytes (n : Nat) : List Nat :=
  [(n >>> 24) % 256, (n >>> 16) % 256, (n >>> 8) % 256, n % 256]

/-- Big-endian bytes of a 64-bit value. -/
def be64Bytes (n : Nat) : List Nat :=
  [(n >>> 56) % 256, (n >>> 48) % 256, (n >>> 40) % 256, (n >>> 32) % 256,
   (n >>> 24) % 256, (n >>> 16) % 256, (n >>> 8) % 256, n % 256]

/-- The bytes of a (pure ASCII, in this code base) Go string. -/
def strBytes (s : String) : List Nat := s.data.map Char.toNat

/-- Lowercase hex digit. -/
def hexDigit (n : Nat) : Char :=
  if n < 10 then Char.ofNat (48 + n) else Char.ofNat (87 + n)

/-- Lowercase hex encoding of a byte list, as in Go hex.EncodeToString. -/
def hexEncode (l : List Nat) : String :=
  ⟨l.foldr (fun b acc => hexDigit (b / 16) :: hexDigit (b % 16) :: acc) []⟩

/-! ## SHA-256

The pairing suite used by the Go code (kyber bn256) has sha256 as its
associated hash, so Suite.Hash() is sha256.  Implemented here over byte
lists, per FIPS 180-4. -/

def sha256K : List Nat :=
  [1116352408, 1899447441, 3049323471, 3921009573,
   961987163, 1508970993, 2453635748, 2870763221,
   3624381080, 310598401, 607225278, 1426881987,
   1925078388, 2162078206, 2614888103, 3248222580,
   3835390401, 4022224774, 264347078, 604807628,
   770255983, 1249150122, 1555081692, 1996064986,
   2554220882, 2821834349, 2952996808, 3210313671,
   3336571891, 3584528711, 113926993, 338241895,
   666307205, 773529912, 1294757372, 1396182291,
   1695183700, 1986661051, 2177026350, 2456956037,
   2730485921, 2820302411, 3259730800, 3345764771,
   3516065817, 3600352804, 4094571909, 275423344,
   430227734, 506948616, 659060556, 883997877,
   958139571, 1322822218, 1537002063, 1747873779,
   1955562222, 2024104815, 2227730452, 2361852424,
   2428436474, 2756734187, 3204031479, 3329325298]

def sha256H0 : List Nat :=
  [1779033703, 3144134277, 1013904242, 2773480762,
   1359893119, 2600822924, 528734635, 1541459225]

/-- Group bytes into big-endian 32-bit words. -/
def bytesToWords : List Nat → List Nat
  | b3 :: b2 :: b1 :: b0 :: rest =>
      (b3 * 16777216 + b2 * 65536 + b1 * 256 + b0) :: bytesToWords rest
  | _ => []

def sSigma0 (x : Nat) : Nat := rotr32 x 7 ^^^ rotr32 x 18 ^^^ (x >>> 3)

def sSigma1 (x : Nat) : Nat := rotr32 x 17 ^^^ rotr32 x 19 ^^^ (x >>> 10)

def bSigma0 (x : Nat) : Nat := rotr32 x 2 ^^^ rotr32 x 13 ^^^ rotr32 x 22

def bSigma1 (x : Nat) : Nat := rotr32 x 6 ^^^ rotr32 x 11 ^^^ rotr32 x 25

def chF (e f g : Nat) : Nat := (e &&& f) ^^^ ((e ^^^ 4294967295) &&& g)

def majF (a b c : Nat) : Nat := (a &&& b) ^^^ (a &&& c) ^^^ (b &&& c)

/-- Extend the 16-word schedule by n further words. -/
def extendW : Nat → List Nat → List Nat
  | 0, w => w
  | n + 1, w =>
      let t := add32 (add32 (sSigma1 (w.getD (w.length - 2) 0)) (w.getD (w.length - 7) 0))
               (add32 (sSigma0 (w.getD (w.length - 15) 0)) (w.getD (w.length - 16) 0))
      extendW n (w ++ [t])

/-- One sha256 compression round on the 8-word state. -/
def compressStep (s : List Nat) (kw : Nat × Nat) : List Nat :=
  match s with
  | [a, b, c, d, e, f, g, h] =>
      let t1 := add32 h (add32 (bSigma1 e) (add32 (chF e f g) (add32 kw.1 kw.2)))
      let t2 := add32 (bSigma0 a) (majF a b c)
      [add32 t1 t2, a, b, c, add32 d t1, e, f, g]
  | other => other

/-- Compress one 64-byte block into the hash state. -/
def compressBlock (hstate : List Nat) (block : List Nat) : List Nat :=
  let w := extendW 48 (bytesToWords block)
  let s := (sha256K.zip w).foldl compressStep hstate
  List.zipWith add32 hstate s

/-- FIPS 180-4 padding for a byte message. -/
def sha256Pad (msg : List Nat) : List Nat :=
  msg ++ [128] ++ List.replicate ((119 - msg.length % 64) % 64) 0
      ++ be64Bytes (8 * msg.length)

/-- Split a byte list into 64-byte chunks (fuel-structural so that the
kernel can evaluate it; the fuel l.length always suffices). -/
def chunksAux : Nat → List Nat → List (List Nat)
  | 0, _ => []
  | _, [] => []
  | fuel + 1, b :: rest => ((b :: rest).take 64) :: chunksAux fuel ((b :: rest).drop 64)

def chunks64 (l : List Nat) : List (List Nat) := chunksAux l.length l

/-- sha256 digest of a byte list, as 32 bytes. -/
def sha256 (msg : List Nat) : List Nat :=
  (((chunks64 (sha256Pad msg)).foldl compressBlock sha256H0).map be32Bytes).flatten

/-- Lowercase-hex sha256 of an ASCII string, as Go sha256 + hex.EncodeToString. -/
def sha256Hex (s : String) : String := hexEncode (sha256 (strBytes s))

/-! ## Data model (types.go / config.go)

Go int and int64 fields are modelled as Int; byte slices as List Nat;
hex-digest strings as String. -/

structure BlockHeader where
  Round : Int
  Owner : Int
  Root : String
  Randomness : Int
  PrvHash : String
  PrvSig : List Nat
deriving DecidableEq

structure Block where
  header : BlockHeader
  Blob : List Nat
deriving DecidableEq

structure Notarization where
  Hash : String
  Signature : List Nat
deriving DecidableEq

structure NotarizedBlock where
  Block : Block
  Notarization : Notarization
deriving DecidableEq

/-- Go field promotion n.Round through the embedded Block and header. -/
def NotarizedBlock.Round (n : NotarizedBlock) : Int := n.Block.header.Round

def NotarizedBlock.Owner (n : NotarizedBlock) : Int := n.Block.header.Owner

def NotarizedBlock.Randomness (n : NotarizedBlock) : Int := n.Block.header.Randomness

/-- SignatureProposal: a block plus one threshold-share signature over the
header hash.  The Go field holding the share is named Partial. -/
structure SignatureProposal where
  Block : Block
  sigShare : List Nat
deriving DecidableEq

structure BeaconPacket where
  Round : Int
  Randomness : Int
deriving DecidableEq

/-- Config (config.go), restricted to the fields the embedded operations
read.  The crypto objects Public and Share live in the signature oracle. -/
structure Config where
  Seed : Int
  Index : Int
  N : Nat
  BeaconNb : Nat
  BlockMakerNb : Nat
  NotarizerNb : Nat
  Threshold : Nat
  BlockSize : Nat
  BlockTime : Nat
  FinalizeTime : Nat
deriving DecidableEq

/-- Embeds BlockHeader.Hash (types.go).  The source calls
binary.Write(hash, binary.BigEndian, h.Owner) and then the same for
h.Round, where both fields have the platform-sized Go type int;
encoding/binary rejects that type, so each of those two calls returns an
error (which the source discards) after writing nothing.  The bytes
actually digested are therefore exactly PrvHash ++ Root ++ PrvSig, and
the suite hash is sha256. -/
def BlockHeader.Hash (h : BlockHeader) : String :=
  hexEncode (sha256 (strBytes h.PrvHash ++ strBytes h.Root ++ h.PrvSig))

/-- Go method promotion: Block.Hash() is the header hash. -/
def Block.Hash (b : Block) : String := b.header.Hash

/-- Two-complement big-endian 8-byte encoding of a 64-bit signed value. -/
def int64Bytes (i : Int) : List Nat :=
  be64Bytes ((i % 18446744073709551616).toNat)

/-- Modelled from the spec: the intended digest input of the header hash
(spec section 6), which the source fails to produce because its two
binary.Write calls are rejected: big-endian 64-bit Owner, then Round,
then the bytes of PrvHash, Root and PrvSig. -/
def specHashInput (h : BlockHeader) : List Nat :=
  int64Bytes h.Owner ++ int64Bytes h.Round ++
    strBytes h.PrvHash ++ strBytes h.Root ++ h.PrvSig

/-- The digest input actually produced by the source. -/
def hashInput (h : BlockHeader) : List Nat :=
  strBytes h.PrvHash ++ strBytes h.Root ++ h.PrvSig

/-- GenesisBlock (types.go).  The Go literal leaves Randomness at its
zero value. -/
def GenesisBlock : Block :=
  { header :=
    { Round := 0
      Owner := -1
      Root := "6afbc27f4ae8951a541be53038ca20d3a9f18f60a38b1dc2cd48a46ff5d26ace"
      Randomness := 0
      PrvHash := "a948904f2f0f479b8f8197694b30184b0d2ed1c1cd2a1ec0fb85d299a192a447"
      PrvSig := strBytes "3605ff73b6faec27aa78e311603e9fe2ef35bad82ccf46fc707814bfbdcc6f9e" }
    Blob := strBytes "Hello Genesis" }

/-! ## Beacon randomness, permutation and weights (beacon.go)

The Go source derives a permutation with math/rand:
rand.New(rand.NewSource(randomness)).Perm(n).  The generator internals
are not part of this repository; per the spec (section 4.1) only a
deterministic pseudo-random generator seeded with the randomness is
required, so the generator is modelled as a 64-bit linear congruential
generator while Perm keeps the exact inside-out shuffle structure of Go
rand.Perm. -/

/-- Modelled from the spec: one step of the deterministic generator. -/
def rngNext (s : Nat) : Nat :=
  (6364136223846793005 * s + 1442695040888963407) % 18446744073709551616

/-- Modelled from the spec: generator state seeded from an int64. -/
def mkRng (seed : Int) : Nat := (seed % 18446744073709551616).toNat

/-- Modelled from the spec: draw a non-negative 63-bit value (Go Int63). -/
def rngInt63 (s : Nat) : Nat × Nat :=
  let s2 := rngNext s
  (s2 % 9223372036854775808, s2)

/-- Modelled from the spec: Go Intn, a value in [0, bound). -/
def rngIntn (s : Nat) (bound : Nat) : Nat × Nat :=
  let p := rngInt63 s
  (p.1 % bound, p.2)

/-- The body of the Go rand.Perm loop: m[i] = m[j]; m[j] = i. -/
def permStep (m : List Nat) (i j : Nat) : List Nat :=
  (m.set i (m.getD j 0)).set j i

/-- Go rand.Perm(n): m starts as n zeros; for i in [0, n) draw
j := Intn(i+1) and run m[i] = m[j]; m[j] = i. -/
def goPerm (n : Nat) (s0 : Nat) : List Nat :=
  ((List.range n).foldl
    (fun p i =>
      let q := rngIntn p.2 (i + 1)
      (permStep p.1 i q.1, q.2))
    (List.replicate n 0, s0)).1

/-- Permutation (beacon.go): the map i -> perm[i] built from rand.Perm,
which is the permutation list itself. -/
def Permutation (n : Nat) (randomness : Int) : List Nat :=
  goPerm n (mkRng randomness)

/-- Weights (beacon.go): weights[i] = perm[i] + 1 for each i. -/
def Weights (n : Nat) (randomness : Int) : List Nat :=
  (Permutation n randomness).map (· + 1)

/-- The first k iterations of the Go rand.Perm loop on an array of n zeros. -/
def permFold (s0 k n : Nat) : List Nat × Nat :=
  (List.range k).foldl
    (fun p i =>
      let q := rngIntn p.2 (i + 1)
      (permStep p.1 i q.1, q.2))
    (List.replicate n 0, s0)

/-! ## The finalized chain (storage.go) -/

/-- Chain (storage.go): only finalized blocks.  The mutex is dropped;
the Go zero value has a nil slice, nil last pointer and length 0. -/
structure Chain where
  all : List Block
  last : Option Block
  length : Int
deriving DecidableEq

def Chain.empty : Chain := { all := [], last := none, length := 0 }

/-- Chain.Append (storage.go).  Returns none where Go panics: when the
chain is nonempty and the block does not reference the hash of the last
header (or, unreachable under the chain invariant, when length > 0 with
a nil last pointer). -/
def Chain.Append (f : Chain) (b : Block) : Option Chain :=
  if f.length > 0 then
    match f.last with
    | none => none
    | some l =>
      if b.header.PrvHash ≠ l.header.Hash then none
      else some { all := f.all ++ [b], last := some b, length := f.length + 1 }
  else some { all := f.all ++ [b], last := some b, length := f.length + 1 }

/-- A sequence of Append calls, stopping at the first panic. -/
def appendAll (c : Chain) : List Block → Option Chain
  | [] => some c
  | b :: t =>
      match c.Append b with
      | none => none
      | some c2 => appendAll c2 t

/-- Any chain built from the zero value by Append calls that all
complete without panic. -/
def buildChain (bs : List Block) : Option Chain := appendAll Chain.empty bs

/-- The hash-link property down a block list: every block after the
first carries the header hash of its predecessor in PrvHash. -/
def linked : List Block → Prop
  | [] => True
  | [_] => True
  | a :: b :: t => b.header.PrvHash = a.header.Hash ∧ linked (b :: t)

/-- Internal consistency of a Chain value. -/
def chainInv (c : Chain) : Prop :=
  linked c.all ∧ c.last = c.all.getLast? ∧ c.length = (c.all.length : Int)

/-- A block for witnesses: references the genesis header hash. -/
def witnessBlock1 : Block :=
  { header :=
    { Round := 1
      Owner := 0
      Root := "00"
      Randomness := 5
      PrvHash := GenesisBlock.header.Hash
      PrvSig := [] }
    Blob := [] }

def witnessChain : Chain :=
  { all := [GenesisBlock, witnessBlock1], last := some witnessBlock1, length := 2 }

/-! ## Association-list maps (Go maps, modelled in insertion order) -/

def alistLookup {κ ν : Type} [DecidableEq κ] (k : κ) : List (κ × ν) → Option ν
  | [] => none
  | (k2, v) :: t => if k = k2 then some v else alistLookup k t

/-- Insert or replace, keeping the position of an existing key. -/
def alistInsert {κ ν : Type} [DecidableEq κ] (k : κ) (v : ν) :
    List (κ × ν) → List (κ × ν)
  | [] => [(k, v)]
  | (k2, v2) :: t =>
      if k = k2 then (k2, v) :: t else (k2, v2) :: alistInsert k v t

def alistErase {κ ν : Type} [DecidableEq κ] (k : κ) : List (κ × ν) → List (κ × ν)
  | [] => []
  | (k2, v2) :: t => if k = k2 then t else (k2, v2) :: alistErase k t

/-- Go m[k] = append(m[k], v) on a map of slices. -/
def alistAppend {κ ν : Type} [DecidableEq κ] (k : κ) (v : ν)
    (m : List (κ × List ν)) : List (κ × List ν) :=
  match alistLookup k m with
  | some l => alistInsert k (l ++ [v]) m
  | none => alistInsert k [v] m

/-! ## Threshold signatures (external contract, spec section 4.2) -/

/-- The pairing-based threshold-signature primitive (kyber tbls) used by
storage.go.  It is an external library, not repository code; its
observable interface is a record of oracles.  verify is tbls.Verify on
the message (the header hash string); sigIndex is tbls.SigShare.Index;
recover is tbls.Recover; sign is tbls.Sign with this node share.  A none
result stands for the corresponding Go error. -/
structure TblsOracle where
  verify : String → List Nat → Bool
  sigIndex : List Nat → Option Nat
  recover : String → List (List Nat) → Option (List Nat)
  sign : String → Option (List Nat)

/-! ## blockStorage (storage.go) -/

structure BlockStorage where
  c : Config
  block : Block
  finalSig : List Nat
  sigs : List (Nat × List Nat)
  notarized : Bool
deriving DecidableEq

def newBlockStorage (c : Config) (b : Block) : BlockStorage :=
  { c := c, block := b, finalSig := [], sigs := [], notarized := false }

/-- blockStorage.AddPartialSig (storage.go).  Returns the updated
storage plus the Go (notarizedBlock, error) pair, modelled as an Except
of an optional NotarizedBlock. -/
def BlockStorage.AddPartialSig (o : TblsOracle) (b : BlockStorage)
    (s : List Nat) : BlockStorage × Except String (Option NotarizedBlock) :=
  if b.notarized then (b, Except.ok none)
  else if o.verify b.block.header.Hash s = false then
    (b, Except.error "invalid signature")
  else
    match o.sigIndex s with
    | none => (b, Except.error "invalid signature index")
    | some i =>
        let sigs2 := alistInsert i s b.sigs
        if sigs2.length < b.c.Threshold then
          ({ b with sigs := sigs2 }, Except.ok none)
        else
          match o.recover b.block.header.Hash (sigs2.map Prod.snd) with
          | none => ({ b with sigs := sigs2 }, Except.error "recover failed")
          | some signature =>
              ({ b with sigs := sigs2, notarized := true },
                Except.ok (some
                  { Block := b.block
                    Notarization :=
                      { Hash := b.block.header.Hash, Signature := signature } }))

/-- blockStorage.SignatureProposal (storage.go): this node partial
signature over the header hash; none is the Go panic on a Sign error. -/
def BlockStorage.mkSignatureProposal (o : TblsOracle) (b : BlockStorage) :
    Option SignatureProposal :=
  match o.sign b.block.header.Hash with
  | none => none
  | some sig =>
      some { Block := { header := b.block.header, Blob := b.block.Blob }
             sigShare := sig }

def isOkE {α : Type} : Except String α → Bool
  | Except.ok _ => true
  | Except.error _ => false

/-- Oracle for witnesses: always verifies, takes the head byte as the
signer index, recovers a fixed signature, signs with a fixed share. -/
def witnessOracle : TblsOracle :=
  { verify := fun _ _ => true
    sigIndex := fun s => s.head?
    recover := fun _ _ => some [9]
    sign := fun _ => some [7] }

def witnessConfig : Config :=
  { Seed := 67912, Index := 3, N := 6, BeaconNb := 1, BlockMakerNb := 2,
    NotarizerNb := 3, Threshold := 1, BlockSize := 100, BlockTime := 500,
    FinalizeTime := 500 }

/-! ## roundStorage (storage.go)

The Go struct keeps a pointer to the Finalizer; the model instead
returns, next to the updated storage, the list of notarized blocks that
the Go code would hand to finalizer.Store, for the caller to apply.  Go
map iteration (over blocks) is modelled in insertion order. -/

abbrev BlockProposal := Block

structure RoundStorage where
  c : Config
  Round : Int
  blocks : List (String × BlockStorage)
  tmpSigs : List (Int × List SignatureProposal)
  randomness : Int
  maxWeightNotarized : Int
  maxNotarized : Option NotarizedBlock
  maxWeightSig : Int
  weights : List Nat
  notarizeds : List NotarizedBlock
deriving DecidableEq

/-- newRoundStorage (storage.go). -/
def newRoundStorage (c : Config) (round : Int) (randomness : Int) : RoundStorage :=
  { c := c
    Round := round
    blocks := []
    tmpSigs := []
    randomness := randomness
    weights := Weights c.BlockMakerNb randomness
    maxWeightNotarized := -1
    maxNotarized := none
    maxWeightSig := -1
    notarizeds := [] }

/-- roundStorage.StoreNotarizedBlock: append to the notarized list and
hand the block to the finalizer (returned as the emitted list). -/
def RoundStorage.StoreNotarizedBlock (r : RoundStorage) (n : NotarizedBlock) :
    RoundStorage × List NotarizedBlock :=
  ({ r with notarizeds := r.notarizeds ++ [n] }, [n])

/-- roundStorage.StoreSignatureProposal (storage.go).  none is the Go
panic on a round mismatch.  The emitted list carries blocks handed to
finalizer.Store. -/
def RoundStorage.StoreSignatureProposal (o : TblsOracle) (r : RoundStorage)
    (s : SignatureProposal) : Option (RoundStorage × List NotarizedBlock) :=
  if s.Block.header.Round ≠ r.Round then none
  else
    let h := s.Block.header.Hash
    match alistLookup h r.blocks with
    | none =>
        some ({ r with blocks := alistInsert h (newBlockStorage r.c s.Block) r.blocks }, [])
    | some bst =>
        let res := bst.AddPartialSig o s.sigShare
        let r2 := { r with blocks := alistInsert h res.1 r.blocks }
        match res.2 with
        | Except.error _ => some (r2, [])
        | Except.ok none => some (r2, [])
        | Except.ok (some nb) => some (r2.StoreNotarizedBlock nb)

/-- roundStorage.StoreBlockProposal (storage.go).  none is the panic on
a round mismatch. -/
def RoundStorage.StoreBlockProposal (r : RoundStorage) (p : BlockProposal) :
    Option RoundStorage :=
  if p.header.Round ≠ r.Round then none
  else
    let h := p.Hash
    match alistLookup h r.blocks with
    | none => some { r with blocks := alistInsert h (newBlockStorage r.c p) r.blocks }
    | some _ => some r

/-- roundStorage.IsNotarized (storage.go). -/
def RoundStorage.IsNotarized (r : RoundStorage) : Bool :=
  r.notarizeds.length > 0

/-- The weight lookup r.weights[owner]; none is the Go index-out-of-range
panic for owners outside [0, len(weights)). -/
def weightAt (weights : List Nat) (owner : Int) : Option Nat :=
  if h : 0 ≤ owner ∧ owner.toNat < weights.length then
    some (weights.get ⟨owner.toNat, h.2⟩)
  else none

/-- The loop of roundStorage.HighestNotarizedBlock. -/
def hnbLoop (weights : List Nat) :
    List NotarizedBlock → Int → Option NotarizedBlock →
    Option (Int × Option NotarizedBlock)
  | [], mw, mb => some (mw, mb)
  | n :: t, mw, mb =>
      match weightAt weights n.Owner with
      | none => none
      | some w =>
          if mw < (w : Int) then hnbLoop weights t (w : Int) (some n)
          else hnbLoop weights t mw mb

/-- roundStorage.HighestNotarizedBlock (storage.go): the highest
notarized block strictly above the stored watermark, advancing the
watermark; none is the Go panic on an out-of-range owner index. -/
def RoundStorage.HighestNotarizedBlock (r : RoundStorage) :
    Option (RoundStorage × Option NotarizedBlock) :=
  match hnbLoop r.weights r.notarizeds r.maxWeightNotarized none with
  | none => none
  | some (mw, mb) =>
      some ({ r with maxWeightNotarized := mw, maxNotarized := mb }, mb)

/-- The loop of roundStorage.HighestSignature over the blocks map. -/
def hsLoop (o : TblsOracle) (weights : List Nat) :
    List (String × BlockStorage) → Int → Option SignatureProposal →
    Option (Int × Option SignatureProposal)
  | [], mw, ms => some (mw, ms)
  | (_, st) :: t, mw, ms =>
      match weightAt weights st.block.header.Owner with
      | none => none
      | some w =>
          if mw < (w : Int) then
            match st.mkSignatureProposal o with
            | none => none
            | some sp => hsLoop o weights t (w : Int) (some sp)
          else hsLoop o weights t mw ms

/-- roundStorage.HighestSignature (storage.go): sign the known block of
highest weight above the watermark, store the own signature, advance the
watermark.  none is a panic (owner index out of range, Sign failure, or
the round-mismatch panic inside StoreSignatureProposal). -/
def RoundStorage.HighestSignature (o : TblsOracle) (r : RoundStorage) :
    Option (RoundStorage × List NotarizedBlock × Option SignatureProposal) :=
  match hsLoop o r.weights r.blocks r.maxWeightSig none with
  | none => none
  | some (mw, ms) =>
      let r2 := { r with maxWeightSig := mw }
      match ms with
      | none => some (r2, [], none)
      | some sp =>
          match r2.StoreSignatureProposal o sp with
          | none => none
          | some (r3, emitted) => some (r3, emitted, some sp)

/-- The genesis notarization the finalizer seeds its map with. -/
def genesisNotarized : NotarizedBlock :=
  { Block := GenesisBlock
    Notarization :=
      { Hash := GenesisBlock.header.Hash
        Signature := strBytes "who are you old fool" } }

/-- A round storage holding the genesis block, whose Owner is -1:
outside the weight array. -/
def badRoundStorage : RoundStorage :=
  { newRoundStorage witnessConfig 0 0 with
      notarizeds := [genesisNotarized]
      blocks := [(GenesisBlock.Hash, newBlockStorage witnessConfig GenesisBlock)] }

/-- A well-formed block and round storage for the C10 witness. -/
def goodBlock : Block :=
  { header :=
    { Round := 1, Owner := 0, Root := "gd", Randomness := 5,
      PrvHash := "p", PrvSig := [] }
    Blob := [] }

def goodRoundStorage : RoundStorage :=
  { newRoundStorage witnessConfig 1 5 with
      notarizeds := [{ Block := goodBlock,
                       Notarization := { Hash := "", Signature := [] } }]
      blocks := [(goodBlock.Hash, newBlockStorage witnessConfig goodBlock)] }

/-! ## Notarizer (notarizer.go)

Only the state and the handler the claims need.  The finalizer pointer
becomes the emitted-blocks convention of RoundStorage. -/

structure Notarizer where
  c : Config
  round : Int
  rounds : List (Int × RoundStorage)
  tmpBeacon : List (Int × BeaconPacket)
  tmpSigs : List (Int × List SignatureProposal)
  tmpBlocks : List (Int × List BlockProposal)
  tmpNot : List (Int × List NotarizedBlock)
deriving DecidableEq

/-- Notarizer.NewSignatureProposal (notarizer.go): future rounds are
buffered in tmpSigs; past rounds are dropped; the current round is
routed to the round storage when present, else buffered.  none is the
round-mismatch panic inside StoreSignatureProposal (unreachable when the
storage is keyed consistently). -/
def Notarizer.NewSignatureProposal (o : TblsOracle) (m : Notarizer)
    (s : SignatureProposal) : Option (Notarizer × List NotarizedBlock) :=
  if s.Block.header.Round > m.round then
    some ({ m with tmpSigs := alistAppend s.Block.header.Round s m.tmpSigs }, [])
  else if s.Block.header.Round < m.round then
    some (m, [])
  else
    match alistLookup s.Block.header.Round m.rounds with
    | none =>
        some ({ m with tmpSigs := alistAppend s.Block.header.Round s m.tmpSigs }, [])
    | some rs =>
        match rs.StoreSignatureProposal o s with
        | none => none
        | some (rs2, emitted) =>
            some ({ m with rounds := alistInsert s.Block.header.Round rs2 m.rounds },
              emitted)

/-- A notarizer state for the C6 witness, at round 5 with a storage for
round 5. -/
def witnessNotarizer : Notarizer :=
  { c := witnessConfig
    round := 5
    rounds := [(5, newRoundStorage witnessConfig 5 99)]
    tmpBeacon := []
    tmpSigs := []
    tmpBlocks := []
    tmpNot := [] }

def witnessSigHeader : BlockHeader :=
  { Round := 2
    Owner := 0
    Root := "x"
    Randomness := 0
    PrvHash := "y"
    PrvSig := [] }

def witnessSigProposalOld : SignatureProposal :=
  { Block := { header := witnessSigHeader, Blob := [] }
    sigShare := [0] }

/-! ## Beacon (beacon.go) -/

/-- The package constant seed (beacon.go line 12). -/
def seedConst : Int := 1234567890

/-- Beacon (beacon.go): the generator state replaces the rand.Rand
pointer. -/
structure Beacon where
  c : Config
  r : Nat
  round : Int
deriving DecidableEq

/-- NewBeaconProcess (beacon.go): the PRNG is seeded from the package
constant seed, not from conf.Seed; round is the Go zero value 0. -/
def NewBeaconProcess (conf : Config) : Beacon :=
  { c := conf, r := mkRng seedConst, round := 0 }

/-! ## Finalizer (storage.go) -/

structure Finalizer where
  c : Config
  chain : Chain
  notarized : List (Int × List NotarizedBlock)
  round : Int
deriving DecidableEq

/-- NewFinalizer (storage.go): map seeded with genesis at round 0,
cursor at 1.  The done callback is dropped from the model. -/
def NewFinalizer (c : Config) (chain : Chain) : Finalizer :=
  { c := c, chain := chain, notarized := [(0, [genesisNotarized])], round := 1 }

/-- Finalizer.purge (storage.go).  Keeps, among the blocks of round
start - 1, the one referenced as PrvHash by a block of round start.
none is a Go panic: a missing map entry, more than one referenced
ancestor, or no referenced ancestor (prevBlocks[referencedIdx[0]] on an
empty index list). -/
def Finalizer.purge (f : Finalizer) (start : Int) : Option Finalizer :=
  match alistLookup (start - 1) f.notarized with
  | none => none
  | some prevBlocks =>
      if prevBlocks.length ≤ 1 then some f
      else
        match alistLookup start f.notarized with
        | none => none
        | some startBlocks =>
            let referenced := prevBlocks.filter (fun ib =>
              startBlocks.any (fun jb =>
                ib.Block.header.Hash == jb.Block.header.PrvHash))
            if referenced.length > 1 then none
            else
              match referenced.head? with
              | none => none
              | some fb =>
                  some { f with notarized := alistInsert (start - 1) [fb] f.notarized }

/-- Finalizer.finalize (storage.go), without the sleep, lock and done
callback: for round - 1 <= 0 only the cursor advances; otherwise purge
round - 1, append the (single, purged) block of round round - 2 to the
chain, delete round - 2 from the map, and advance the cursor.  none is
a panic (from purge, a missing round - 2 entry, or Append). -/
def Finalizer.finalize (f : Finalizer) (round : Int) : Option Finalizer :=
  if round - 1 ≤ 0 then some { f with round := f.round + 1 }
  else
    match f.purge (round - 1) with
    | none => none
    | some g =>
        match alistLookup (round - 2) g.notarized with
        | none => none
        | some l =>
            match l.head? with
            | none => none
            | some b =>
                match g.chain.Append b.Block with
                | none => none
                | some ch2 =>
                    some { g with
                      chain := ch2
                      notarized := alistErase (round - 2) g.notarized
                      round := g.round + 1 }

/-- The weight of a block inside HighestChainHead (storage.go):
weights are cached per round in allWeights, computed from the round
randomness of the first block seen for that round, then indexed by the
block Owner (none = index panic). -/
def getWeightCached (bmNb : Nat) (cache : List (Int × List Nat))
    (block : NotarizedBlock) : Option (Nat × List (Int × List Nat)) :=
  match alistLookup block.Round cache with
  | some ws =>
      match weightAt ws block.Owner with
      | none => none
      | some w => some (w, cache)
  | none =>
      let ws := Weights bmNb block.Randomness
      match weightAt ws block.Owner with
      | none => none
      | some w => some (w, alistInsert block.Round ws cache)

/-- The inner loop of maxWeightToBlock over the previous-round blocks
(storage.go).  It only ever runs on the nil slice, because the guard in
maxWeightToBlock returns early when the previous round exists; it is
kept for structural fidelity, including the comparison of the previous
block hash against the hash (not PrvHash) of the current block. -/
def mwLoop (rec : List (Int × List Nat) → NotarizedBlock →
      Option (Int × List (Int × List Nat))) (hash : String) :
    List NotarizedBlock → Int → List (Int × List Nat) →
    Option (Int × List (Int × List Nat))
  | [], maxPrv, cache => some (maxPrv, cache)
  | b :: t, maxPrv, cache =>
      if b.Block.header.Hash ≠ hash then mwLoop rec hash t maxPrv cache
      else
        match rec cache b with
        | none => none
        | some (w, cache2) =>
            mwLoop rec hash t (if maxPrv < w then w else maxPrv) cache2

/-- maxWeightToBlock (storage.go).  The source guard
"prevBlocks, exists := f.notarized[block.Round-1]; if exists -> return
weight" (commented: should never happen though) returns the single
block weight whenever the previous round is present; when it is absent
the loop runs over the nil slice and contributes 0.  The fuel only
bounds the (dead) recursion; any positive fuel gives the Go behavior. -/
def maxWeightToBlock (f : Finalizer) (endRound : Int) :
    Nat → List (Int × List Nat) → NotarizedBlock →
    Option (Int × List (Int × List Nat))
  | 0, _, _ => none
  | fuel + 1, cache, block =>
      match getWeightCached f.c.BlockMakerNb cache block with
      | none => none
      | some (weight, cache2) =>
          if block.Round - 1 = endRound then some ((weight : Int), cache2)
          else
            match alistLookup (block.Round - 1) f.notarized with
            | some _ => some ((weight : Int), cache2)
            | none =>
                match mwLoop (maxWeightToBlock f endRound fuel)
                    block.Block.Hash [] 0 cache2 with
                | none => none
                | some (maxPrv, cache3) => some (maxPrv + (weight : Int), cache3)

/-- The selection loop of HighestChainHead over the round candidates:
first block at the strict maximum (starting from 0) wins. -/
def hchLoop (f : Finalizer) (endRound : Int) (fuel : Nat) :
    List NotarizedBlock → Int → Option NotarizedBlock →
    List (Int × List Nat) → Option (Int × Option NotarizedBlock)
  | [], maximum, maxBlock, _ => some (maximum, maxBlock)
  | b :: t, maximum, maxBlock, cache =>
      match maxWeightToBlock f endRound fuel cache b with
      | none => none
      | some (cw, cache2) =>
          if maximum < cw then hchLoop f endRound fuel t cw (some b) cache2
          else hchLoop f endRound fuel t maximum maxBlock cache2

/-- Finalizer.HighestChainHead (storage.go).  The outer Option is a Go
panic; the Except is the Go error return. -/
def Finalizer.HighestChainHead (f : Finalizer) (round : Int) :
    Option (Except String NotarizedBlock) :=
  if round = 0 then
    match alistLookup 0 f.notarized with
    | none => none
    | some l =>
        match l.head? with
        | none => none
        | some b => some (Except.ok b)
  else
    match alistLookup round f.notarized with
    | none => some (Except.error "no blocks exists for this round")
    | some blocks =>
        match hchLoop f f.chain.length (round.toNat + 1) blocks 0 none [] with
        | none => none
        | some (_, none) => some (Except.error "no max block found for given round")
        | some (_, some b) => some (Except.ok b)

/-- Modelled from the spec: the maximum over recursive chain weights of
a list of ancestor candidates (section 4.8: max over ancestors of their
chain weights). -/
def specMaxAnc (rec : NotarizedBlock → Option Int) :
    List NotarizedBlock → Option Int
  | [] => some 0
  | b :: t =>
      match rec b, specMaxAnc rec t with
      | some w, some m => some (max w m)
      | _, _ => none

/-- Modelled from the spec (section 4.8 HighestChainHead): the weight of
a chain headed by a block is the block own-round weight (from its own
round randomness) plus the maximum chain weight of the notarized blocks
of the previous round whose header hash the block references in
PrvHash, down to the current chain head.  The fuel round + 1 suffices
since rounds strictly decrease. -/
def specChainWeight (f : Finalizer) (endRound : Int) :
    Nat → NotarizedBlock → Option Int
  | 0, _ => none
  | fuel + 1, block =>
      match weightAt (Weights f.c.BlockMakerNb block.Randomness) block.Owner with
      | none => none
      | some w =>
          if block.Round - 1 = endRound then some (w : Int)
          else
            match specMaxAnc (specChainWeight f endRound fuel)
                (((alistLookup (block.Round - 1) f.notarized).getD []).filter
                  (fun b => b.Block.header.Hash == block.Block.header.PrvHash)) with
            | none => none
            | some m => some (m + (w : Int))

def specHchLoop (f : Finalizer) (endRound : Int) (fuel : Nat) :
    List NotarizedBlock → Int → Option NotarizedBlock →
    Option (Int × Option NotarizedBlock)
  | [], maximum, maxBlock => some (maximum, maxBlock)
  | b :: t, maximum, maxBlock =>
      match specChainWeight f endRound fuel b with
      | none => none
      | some cw =>
          if maximum < cw then specHchLoop f endRound fuel t cw (some b)
          else specHchLoop f endRound fuel t maximum maxBlock

/-- Modelled from the spec: HighestChainHead as specified, maximizing
whole-chain weight sums with first-found tie-breaking. -/
def specHighestChainHead (f : Finalizer) (round : Int) :
    Option (Except String NotarizedBlock) :=
  if round = 0 then
    match alistLookup 0 f.notarized with
    | none => none
    | some l =>
        match l.head? with
        | none => none
        | some b => some (Except.ok b)
  else
    match alistLookup round f.notarized with
    | none => some (Except.error "no blocks exists for this round")
    | some blocks =>
        match specHchLoop f f.chain.length (round.toNat + 1) blocks 0 none with
        | none => none
        | some (_, none) => some (Except.error "no max block found for given round")
        | some (_, some b) => some (Except.ok b)

def witnessFinalizer : Finalizer := NewFinalizer witnessConfig Chain.empty

def witnessFinalizer2 : Finalizer :=
  { witnessFinalizer with
      chain := { all := [GenesisBlock], last := some GenesisBlock, length := 1 }
      notarized := []
      round := 2 }

/-! ## A concrete finalizer state separating the implemented and the
specified HighestChainHead (for C2).

Round-1 weights (randomness 1) are [3, 2, 1]; round-2 weights
(randomness 2) are [2, 3, 1].  nbA2 (owner 0, weight 2) references
nbA1 (owner 0, weight 3): chain sum 5.  nbB2 (owner 1, weight 3)
references nbB1 (owner 2, weight 1): chain sum 4. -/

def hdrA1 : BlockHeader :=
  { Round := 1
    Owner := 0
    Root := "a1"
    Randomness := 1
    PrvHash := GenesisBlock.header.Hash
    PrvSig := [] }

def hdrB1 : BlockHeader :=
  { Round := 1
    Owner := 2
    Root := "b1"
    Randomness := 1
    PrvHash := GenesisBlock.header.Hash
    PrvSig := [] }

def hdrA2 : BlockHeader :=
  { Round := 2
    Owner := 0
    Root := "a2"
    Randomness := 2
    PrvHash := hdrA1.Hash
    PrvSig := [] }

def hdrB2 : BlockHeader :=
  { Round := 2
    Owner := 1
    Root := "b2"
    Randomness := 2
    PrvHash := hdrB1.Hash
    PrvSig := [] }

def nbA1 : NotarizedBlock :=
  { Block := { header := hdrA1, Blob := [] }
    Notarization := { Hash := "", Signature := [] } }

def nbB1 : NotarizedBlock :=
  { Block := { header := hdrB1, Blob := [] }
    Notarization := { Hash := "", Signature := [] } }

def nbA2 : NotarizedBlock :=
  { Block := { header := hdrA2, Blob := [] }
    Notarization := { Hash := "", Signature := [] } }

def nbB2 : NotarizedBlock :=
  { Block := { header := hdrB2, Blob := [] }
    Notarization := { Hash := "", Signature := [] } }

def finalizerC2 : Finalizer :=
  { c := { witnessConfig with BlockMakerNb := 3 }
    chain := Chain.empty
    notarized := [(0, [genesisNotarized]), (1, [nbA1, nbB1]), (2, [nbA2, nbB2])]
    round := 3 }

/-! ## Headers for the header-hash claim (C3) -/

def hdrH1 : BlockHeader :=
  { Round := 1
    Owner := 0
    Root := "r"
    Randomness := 0
    PrvHash := "p"
    PrvSig := [] }

def hdrH2 : BlockHeader := { hdrH1 with Round := 2 }

def hdrH3 : BlockHeader := { hdrH1 with Owner := 7 }

theorem goPerm_eq_permFold (n s0 : Nat) : goPerm n s0 = (permFold s0 n n).1 := rfl

theorem permStep_length (m : List Nat) (i j : Nat) :
    (permStep m i j).length = m.length := by
  simp [permStep]

/-- Replacing an entry and appending the value it held is a permutation
of pushing the new value in front. -/
theorem perm_set_append {α} : ∀ (l : List α) (j : Nat) (a d : α), j < l.length →
    List.Perm (l.set j a ++ [l.getD j d]) (a :: l)
  | x :: t, 0, a, d, _h => List.Perm.cons a (List.perm_append_singleton x t)
  | x :: t, j + 1, a, d, h =>
      (List.Perm.cons x (perm_set_append t j a d (by simpa using h))).trans
        (List.Perm.swap a x t)

theorem drop_set_of_lt {α} : ∀ (l : List α) (i : Nat) (a : α) (n : Nat), i < n →
    (l.set i a).drop n = l.drop n
  | [], _, _, _, _ => by simp
  | _x :: _t, 0, a, n + 1, _h => by simp
  | x :: t, i + 1, a, n + 1, h => by
      simpa using drop_set_of_lt t i a n (by omega)

theorem drop_cons_getD {α} : ∀ (l : List α) (k : Nat) (x : α) (rest : List α) (d : α),
    l.drop k = x :: rest → l.getD k d = x
  | [], k, x, rest, d, h => by simp at h
  | y :: t, 0, x, rest, d, h => by simp_all
  | y :: t, k + 1, x, rest, d, h => by
      simpa using drop_cons_getD t k x rest d (by simpa using h)

theorem drop_succ_of_drop_cons {α} : ∀ (l : List α) (k : Nat) (x : α) (rest : List α),
    l.drop k = x :: rest → l.drop (k + 1) = rest
  | [], k, x, rest, h => by simp at h
  | y :: t, 0, x, rest, h => by simp_all
  | y :: t, k + 1, x, rest, h => by
      simpa using drop_succ_of_drop_cons t k x rest (by simpa using h)

theorem getD_set_ne {α} : ∀ (l : List α) (i j : Nat) (a d : α), i ≠ j →
    (l.set i a).getD j d = l.getD j d
  | [], _, _, _, _, _ => by simp
  | x :: t, 0, 0, a, d, hne => absurd rfl hne
  | x :: t, 0, j + 1, a, d, _ => by simp
  | x :: t, i + 1, 0, a, d, _ => by simp
  | x :: t, i + 1, j + 1, a, d, hne => by
      simpa using getD_set_ne t i j a d (by omega)

theorem permFold_succ (s0 k n : Nat) :
    permFold s0 (k + 1) n =
      (permStep (permFold s0 k n).1 k (rngIntn (permFold s0 k n).2 (k + 1)).1,
        (rngIntn (permFold s0 k n).2 (k + 1)).2) := by
  simp [permFold, List.range_succ]

/-- Shared final step of the loop invariant: from the previous multiset
description of m and the exchange fact 0 :: m2 ~ k :: m, conclude the
multiset description after iteration k. -/
theorem perm_inv_step (m m2 : List Nat) (k n : Nat) (hkn : k < n)
    (hperm : List.Perm m (List.range k ++ List.replicate (n - k) 0))
    (h02 : List.Perm (0 :: m2) (k :: m)) :
    List.Perm m2 (List.range (k + 1) ++ List.replicate (n - (k + 1)) 0) := by
  have hrep : List.replicate (n - k) (0 : Nat) =
      0 :: List.replicate (n - (k + 1)) 0 := by
    have : n - k = (n - (k + 1)) + 1 := by omega
    rw [this, List.replicate_succ]
  have h1 : List.Perm (k :: m)
      (k :: (List.range k ++ 0 :: List.replicate (n - (k + 1)) 0)) := by
    apply List.Perm.cons k
    rw [← hrep]
    exact hperm
  have h2 : List.Perm (List.range k ++ 0 :: List.replicate (n - (k + 1)) 0)
      (0 :: (List.range k ++ List.replicate (n - (k + 1)) 0)) := List.perm_middle
  have h3 : List.Perm (k :: m)
      (0 :: k :: (List.range k ++ List.replicate (n - (k + 1)) 0)) :=
    (h1.trans (List.Perm.cons k h2)).trans (List.Perm.swap 0 k _)
  have h4 : List.Perm (List.range (k + 1) ++ List.replicate (n - (k + 1)) 0)
      (k :: (List.range k ++ List.replicate (n - (k + 1)) 0)) := by
    rw [List.range_succ, List.append_assoc]
    exact List.perm_middle
  have h5 : List.Perm (0 :: m2)
      (0 :: (List.range (k + 1) ++ List.replicate (n - (k + 1)) 0)) :=
    (h02.trans h3).trans (List.Perm.cons 0 h4.symm)
  exact h5.cons_inv

/-- Loop invariant of the Go rand.Perm inside-out shuffle: after k of n
iterations the array still has length n, its suffix from k on is all
zeros, and as a multiset it is range k plus those zeros. -/
theorem permFold_inv (s0 n : Nat) : ∀ (k : Nat), k ≤ n →
    (permFold s0 k n).1.length = n ∧
    (permFold s0 k n).1.drop k = List.replicate (n - k) (0 : Nat) ∧
    List.Perm (permFold s0 k n).1 (List.range k ++ List.replicate (n - k) 0)
  | 0, _ => by
      refine ⟨by simp [permFold], by simp [permFold], ?_⟩
      simp only [permFold, List.range_zero, List.foldl_nil, Nat.sub_zero,
        List.nil_append]
      exact List.Perm.refl _
  | k + 1, h => by
      obtain ⟨ihlen, ihdrop, ihperm⟩ := permFold_inv s0 n k (by omega)
      have hkn : k < n := by omega
      set M : List Nat := (permFold s0 k n).1 with hM
      set S : Nat := (permFold s0 k n).2 with hS
      set j : Nat := (rngIntn S (k + 1)).1 with hj
      have hjk : j < k + 1 := by
        rw [hj]
        exact Nat.mod_lt _ (by omega)
      have hklen : k < M.length := by omega
      have hrep : List.replicate (n - k) (0 : Nat) =
          0 :: List.replicate (n - (k + 1)) 0 := by
        have : n - k = (n - (k + 1)) + 1 := by omega
        rw [this, List.replicate_succ]
      have hdropk : M.drop k = 0 :: List.replicate (n - (k + 1)) 0 := by
        rw [ihdrop, hrep]
      have hgetDk : M.getD k 0 = 0 := drop_cons_getD M k 0 _ 0 hdropk
      have hstep : permFold s0 (k + 1) n =
          (permStep M k j, (rngIntn S (k + 1)).2) := permFold_succ s0 k n
      have h02 : List.Perm (0 :: permStep M k j) (k :: M) := by
        by_cases hcase : j = k
        · have e1 : permStep M k j = M.set k k := by
            rw [hcase, permStep, hgetDk]
            have := List.set_set (0 : Nat) k M k
            simpa using this
          rw [e1]
          have p1 : List.Perm (M.set k k ++ [M.getD k 0]) (k :: M) :=
            perm_set_append M k k 0 hklen
          rw [hgetDk] at p1
          exact (List.perm_append_singleton 0 (M.set k k)).symm.trans p1
        · have hjlt : j < k := by omega
          have hjlen : j < M.length := by omega
          set x : Nat := M.getD j 0 with hx
          set m1 : List Nat := M.set k x with hm1
          have hperm1 : List.Perm (m1 ++ [0]) (x :: M) := by
            have p1 := perm_set_append M k x 0 hklen
            rw [hgetDk] at p1
            exact p1
          have hm1getD : m1.getD j 0 = x := by
            rw [hm1]
            exact getD_set_ne M k j x 0 (by omega)
          have hm1len : j < m1.length := by
            rw [hm1]
            simpa using hjlen
          have hperm2 : List.Perm (m1.set j k ++ [x]) (k :: m1) := by
            have p2 := perm_set_append m1 j k 0 hm1len
            rw [hm1getD] at p2
            exact p2
          have hstepEq : permStep M k j = m1.set j k := by
            rw [permStep, hm1, hx]
          have hA : List.Perm ((m1.set j k ++ [x]) ++ [0]) ((k :: m1) ++ [0]) :=
            hperm2.append_right [0]
          have hB : List.Perm ((k :: m1) ++ [0]) (k :: x :: M) :=
            List.Perm.cons k hperm1
          have hC : List.Perm (x :: 0 :: m1.set j k)
              ((m1.set j k ++ [x]) ++ [0]) := by
            rw [List.append_assoc]
            exact @List.perm_append_comm Nat [x, 0] (m1.set j k)
          have hD : List.Perm (k :: x :: M) (x :: k :: M) := List.Perm.swap x k M
          have hall : List.Perm (x :: 0 :: m1.set j k) (x :: k :: M) :=
            ((hC.trans hA).trans hB).trans hD
          rw [hstepEq]
          exact hall.cons_inv
      refine ⟨?_, ?_, ?_⟩
      · rw [hstep]
        simpa [permStep_length] using ihlen
      · rw [hstep]
        have hd1 : (permStep M k j).drop (k + 1) = M.drop (k + 1) := by
          rw [permStep]
          rw [drop_set_of_lt _ j _ (k + 1) hjk,
            drop_set_of_lt _ k _ (k + 1) (by omega)]
        have hd2 : M.drop (k + 1) = List.replicate (n - (k + 1)) 0 :=
          drop_succ_of_drop_cons M k 0 _ hdropk
        simpa [hd1] using hd2
      · rw [hstep]
        exact perm_inv_step M (permStep M k j) k n hkn ihperm h02

/-- goPerm returns a permutation of range n. -/
theorem goPerm_perm_range (n s0 : Nat) :
    List.Perm (goPerm n s0) (List.range n) := by
  have h := (permFold_inv s0 n n (Nat.le_refl n)).2.2
  rw [goPerm_eq_permFold]
  simpa using h

theorem goPerm_length (n s0 : Nat) : (goPerm n s0).length = n := by
  rw [goPerm_eq_permFold]
  exact (permFold_inv s0 n n (Nat.le_refl n)).1

theorem linked_append : ∀ (xs : List Block) (l b : Block),
    linked xs → xs.getLast? = some l → b.header.PrvHash = l.header.Hash →
    linked (xs ++ [b])
  | [], l, b, _, h, _ => by simp at h
  | [a], l, b, _, h, hb => by
      simp at h
      subst h
      exact ⟨hb, trivial⟩
  | a :: a2 :: t, l, b, hl, hlast, hb => by
      have h2 : (a2 :: t).getLast? = some l := by
        simpa using hlast
      exact ⟨hl.1, linked_append (a2 :: t) l b hl.2 h2 hb⟩

theorem append_chainInv (c : Chain) (b : Block) (c' : Chain)
    (h : chainInv c) (ha : c.Append b = some c') : chainInv c' := by
  obtain ⟨hlink, hlast, hlen⟩ := h
  rw [Chain.Append] at ha
  by_cases hpos : c.length > 0
  · rw [if_pos hpos] at ha
    have hne : c.all ≠ [] := by
      intro hnil
      rw [hnil] at hlen
      simp at hlen
      omega
    obtain ⟨l, hl⟩ : ∃ l, c.all.getLast? = some l := by
      cases hgl : c.all.getLast? with
      | none => exact absurd (List.getLast?_eq_none_iff.mp hgl) hne
      | some l => exact ⟨l, rfl⟩
    rw [hlast, hl] at ha
    simp only at ha
    by_cases hph : b.header.PrvHash ≠ l.header.Hash
    · rw [if_pos hph] at ha
      exact absurd ha (by simp)
    · rw [if_neg hph] at ha
      have hbh : b.header.PrvHash = l.header.Hash := by
        by_contra hc
        exact hph hc
      obtain rfl : c' = { all := c.all ++ [b], last := some b, length := c.length + 1 } := by
        cases ha
        rfl
      refine ⟨linked_append c.all l b hlink hl hbh, ?_, ?_⟩
      · simp
      · simp [hlen]
  · rw [if_neg hpos] at ha
    have hnil : c.all = [] := by
      have : (c.all.length : Int) ≤ 0 := by omega
      have : c.all.length = 0 := by omega
      exact List.length_eq_zero.mp this
    obtain rfl : c' = { all := c.all ++ [b], last := some b, length := c.length + 1 } := by
      cases ha
      rfl
    refine ⟨?_, ?_, ?_⟩
    · rw [hnil]
      exact trivial
    · simp
    · simp [hlen]

theorem appendAll_chainInv : ∀ (bs : List Block) (c : Chain), chainInv c →
    ∀ (c' : Chain), appendAll c bs = some c' → chainInv c'
  | [], c, h, c', ha => by
      rw [appendAll] at ha
      cases ha
      exact h
  | b :: t, c, h, c', ha => by
      rw [appendAll] at ha
      cases hstep : c.Append b with
      | none => rw [hstep] at ha; exact absurd ha (by simp)
      | some c2 =>
          rw [hstep] at ha
          exact appendAll_chainInv t c2 (append_chainInv c b c2 h hstep) c' ha

theorem linked_get_succ : ∀ (xs : List Block) (i : Nat) (hi : i + 1 < xs.length),
    linked xs →
    (xs.get ⟨i + 1, hi⟩).header.PrvHash =
      (xs.get ⟨i, by omega⟩).header.Hash
  | a :: b :: t, 0, _, hl => hl.1
  | a :: b :: t, i + 1, hi, hl =>
      linked_get_succ (b :: t) i (by simpa using hi) hl.2

/-- Append, when it does not panic, only ever extends the entry list. -/
theorem chainAppend_all (c : Chain) (b : Block) (c' : Chain)
    (ha : c.Append b = some c') : c'.all = c.all ++ [b] := by
  rw [Chain.Append] at ha
  by_cases hpos : c.length > 0
  · rw [if_pos hpos] at ha
    cases hlast : c.last with
    | none =>
        rw [hlast] at ha
        exact absurd ha (by simp)
    | some l =>
        rw [hlast] at ha
        simp only at ha
        by_cases hph : b.header.PrvHash ≠ l.header.Hash
        · rw [if_pos hph] at ha
          exact absurd ha (by simp)
        · rw [if_neg hph] at ha
          cases ha
          rfl
  · rw [if_neg hpos] at ha
    cases ha
    rfl

/-- C1: for every Chain built by a sequence of Append calls that
completes without panic, the block at each position i > 0 has PrvHash
equal to the header hash of the block at position i - 1, and Append only
ever extends the existing entries (it never modifies them). -/
theorem chain_hash_link_invariant :
    (∀ (c : Chain) (b : Block) (c' : Chain), c.Append b = some c' →
        c'.all = c.all ++ [b]) ∧
    (∀ (bs : List Block) (c : Chain), buildChain bs = some c →
        ∀ (i : Nat) (hi : i < c.all.length), 0 < i →
          (c.all.get ⟨i, hi⟩).header.PrvHash =
            (c.all.get ⟨i - 1, by omega⟩).header.Hash) := by
  constructor
  · exact chainAppend_all
  · intro bs c hb i hi hpos
    have hinv : chainInv c :=
      appendAll_chainInv bs Chain.empty ⟨trivial, rfl, rfl⟩ c hb
    obtain ⟨i2, rfl⟩ : ∃ i2, i = i2 + 1 := ⟨i - 1, by omega⟩
    exact linked_get_succ c.all i2 hi hinv.1

/-- Witness for C1: a concrete two-block chain built without panic, and
the link property read off at index 1. -/
theorem chain_hash_link_invariant_witness :
    buildChain [GenesisBlock, witnessBlock1] = some witnessChain ∧
    (witnessChain.all.get ⟨1, by decide⟩).header.PrvHash =
      (witnessChain.all.get ⟨0, by decide⟩).header.Hash :=
  ⟨by decide,
    chain_hash_link_invariant.2 [GenesisBlock, witnessBlock1] witnessChain
      (by decide) 1 (by decide) (by decide)⟩

/-- C5: Weights(n, r) for n > 0 is a length-n list whose values are
exactly a permutation of the integers 1..n, and Weights is a pure
deterministic function of (n, r): equal arguments give identical lists. -/
theorem weights_permutation_deterministic (n : Nat) (r : Int) (_hn : 0 < n) :
    (Weights n r).length = n ∧
    List.Perm (Weights n r) ((List.range n).map (· + 1)) ∧
    (∀ (n2 : Nat) (r2 : Int), n = n2 → r = r2 → Weights n r = Weights n2 r2) := by
  refine ⟨?_, ?_, ?_⟩
  · simp [Weights, Permutation, goPerm_length]
  · exact (goPerm_perm_range n (mkRng r)).map (· + 1)
  · intro n2 r2 h1 h2
    rw [h1, h2]

/-- Witness for C5 at n = 3 and the test seed 67912. -/
theorem weights_permutation_deterministic_witness :
    0 < 3 ∧
    ((Weights 3 67912).length = 3 ∧
      List.Perm (Weights 3 67912) ((List.range 3).map (· + 1)) ∧
      (∀ (n2 : Nat) (r2 : Int), 3 = n2 → (67912 : Int) = r2 →
        Weights 3 67912 = Weights n2 r2)) :=
  ⟨by decide, weights_permutation_deterministic 3 67912 (by decide)⟩

theorem alistInsert_length_of_mem {κ ν : Type} [DecidableEq κ] (k : κ) (v : ν) :
    ∀ (m : List (κ × ν)), alistLookup k m ≠ none →
      (alistInsert k v m).length = m.length
  | [], h => absurd rfl h
  | (k2, v2) :: t, h => by
      by_cases hk : k = k2
      · simp [alistInsert, hk]
      · have h2 : alistLookup k t ≠ none := by
          simpa [alistLookup, hk] using h
        simp [alistInsert, hk, alistInsert_length_of_mem k v t h2]

theorem alistInsert_length_of_not_mem {κ ν : Type} [DecidableEq κ] (k : κ) (v : ν) :
    ∀ (m : List (κ × ν)), alistLookup k m = none →
      (alistInsert k v m).length = m.length + 1
  | [], _ => rfl
  | (k2, v2) :: t, h => by
      by_cases hk : k = k2
      · simp [alistLookup, hk] at h
      · have h2 : alistLookup k t = none := by
          simpa [alistLookup, hk] using h
        simp [alistInsert, hk, alistInsert_length_of_not_mem k v t h2]

theorem addPartialSig_eq_notarized (o : TblsOracle) (b : BlockStorage) (s : List Nat)
    (h : b.notarized = true) : b.AddPartialSig o s = (b, Except.ok none) := by
  rw [BlockStorage.AddPartialSig, if_pos h]

theorem addPartialSig_eq_badVerify (o : TblsOracle) (b : BlockStorage) (s : List Nat)
    (h1 : b.notarized = false) (h2 : o.verify b.block.header.Hash s = false) :
    b.AddPartialSig o s = (b, Except.error "invalid signature") := by
  rw [BlockStorage.AddPartialSig, if_neg (by simp [h1]), if_pos h2]

theorem addPartialSig_eq_badIndex (o : TblsOracle) (b : BlockStorage) (s : List Nat)
    (h1 : b.notarized = false) (h2 : o.verify b.block.header.Hash s = true)
    (h3 : o.sigIndex s = none) :
    b.AddPartialSig o s = (b, Except.error "invalid signature index") := by
  rw [BlockStorage.AddPartialSig, if_neg (by simp [h1]), if_neg (by simp [h2]), h3]

theorem addPartialSig_eq_below (o : TblsOracle) (b : BlockStorage) (s : List Nat)
    (i : Nat) (h1 : b.notarized = false)
    (h2 : o.verify b.block.header.Hash s = true) (h3 : o.sigIndex s = some i)
    (h4 : (alistInsert i s b.sigs).length < b.c.Threshold) :
    b.AddPartialSig o s =
      ({ b with sigs := alistInsert i s b.sigs }, Except.ok none) := by
  rw [BlockStorage.AddPartialSig, if_neg (by simp [h1]), if_neg (by simp [h2]), h3]
  simp only
  rw [if_pos h4]

theorem addPartialSig_eq_recover (o : TblsOracle) (b : BlockStorage) (s : List Nat)
    (i : Nat) (sig : List Nat) (h1 : b.notarized = false)
    (h2 : o.verify b.block.header.Hash s = true) (h3 : o.sigIndex s = some i)
    (h4 : ¬(alistInsert i s b.sigs).length < b.c.Threshold)
    (h5 : o.recover b.block.header.Hash ((alistInsert i s b.sigs).map Prod.snd) =
      some sig) :
    b.AddPartialSig o s =
      ({ b with sigs := alistInsert i s b.sigs, notarized := true },
        Except.ok (some
          { Block := b.block
            Notarization :=
              { Hash := b.block.header.Hash, Signature := sig } })) := by
  rw [BlockStorage.AddPartialSig, if_neg (by simp [h1]), if_neg (by simp [h2]), h3]
  simp only
  rw [if_neg h4, h5]

theorem addPartialSig_eq_recoverFail (o : TblsOracle) (b : BlockStorage) (s : List Nat)
    (i : Nat) (h1 : b.notarized = false)
    (h2 : o.verify b.block.header.Hash s = true) (h3 : o.sigIndex s = some i)
    (h4 : ¬(alistInsert i s b.sigs).length < b.c.Threshold)
    (h5 : o.recover b.block.header.Hash ((alistInsert i s b.sigs).map Prod.snd) =
      none) :
    b.AddPartialSig o s =
      ({ b with sigs := alistInsert i s b.sigs }, Except.error "recover failed") := by
  rw [BlockStorage.AddPartialSig, if_neg (by simp [h1]), if_neg (by simp [h2]), h3]
  simp only
  rw [if_neg h4, h5]

/-- C4: under the crypto contract that recovery from at least Threshold
shares succeeds, AddPartialSig errors exactly when verification or
signer-index extraction fails; on error the stored signature set is
unchanged; a duplicate from an already-seen signer index is no error and
leaves the count unchanged; when the count of distinct signer indices
reaches Threshold the block is notarized and the constructed
NotarizedBlock is returned; after notarization every call is a no-op
returning nil, so the signature set is frozen and notarized is
monotonic. -/
theorem addPartialSig_spec (o : TblsOracle) (b : BlockStorage) (s : List Nat)
    (hrec : ∀ (msg : String) (l : List (List Nat)),
      b.c.Threshold ≤ l.length → (o.recover msg l).isSome = true) :
    (b.notarized = true → b.AddPartialSig o s = (b, Except.ok none)) ∧
    (b.notarized = false →
      (isOkE (b.AddPartialSig o s).2 = false ↔
        (o.verify b.block.header.Hash s = false ∨ o.sigIndex s = none))) ∧
    (isOkE (b.AddPartialSig o s).2 = false → (b.AddPartialSig o s).1 = b) ∧
    (∀ i : Nat, b.notarized = false → o.verify b.block.header.Hash s = true →
      o.sigIndex s = some i → alistLookup i b.sigs ≠ none →
      (b.AddPartialSig o s).1.sigs.length = b.sigs.length ∧
        isOkE (b.AddPartialSig o s).2 = true) ∧
    (∀ i : Nat, b.notarized = false → o.verify b.block.header.Hash s = true →
      o.sigIndex s = some i → alistLookup i b.sigs = none →
      b.c.Threshold ≤ b.sigs.length + 1 →
      ∃ sig : List Nat,
        o.recover b.block.header.Hash
            ((alistInsert i s b.sigs).map Prod.snd) = some sig ∧
        (b.AddPartialSig o s).1.notarized = true ∧
        (b.AddPartialSig o s).2 = Except.ok (some
          { Block := b.block
            Notarization :=
              { Hash := b.block.header.Hash, Signature := sig } })) ∧
    (b.notarized = true → (b.AddPartialSig o s).1.notarized = true) := by
  by_cases hn : b.notarized = true
  · have hres := addPartialSig_eq_notarized o b s hn
    refine ⟨fun _ => hres, ?_, ?_, ?_, ?_, fun _ => by rw [hres]; exact hn⟩
    · intro hf
      rw [hn] at hf
      exact absurd hf (by decide)
    · intro herr
      rw [hres] at herr
      simp [isOkE] at herr
    · intro i hf
      rw [hn] at hf
      exact absurd hf (by decide)
    · intro i hf
      rw [hn] at hf
      exact absurd hf (by decide)
  · have hnf : b.notarized = false := by
      cases hb : b.notarized with
      | true => exact absurd hb hn
      | false => rfl
    by_cases hv : o.verify b.block.header.Hash s = false
    · have hres := addPartialSig_eq_badVerify o b s hnf hv
      refine ⟨fun ht => absurd ht hn, ?_, ?_, ?_, ?_, fun ht => absurd ht hn⟩
      · intro _
        exact ⟨fun _ => Or.inl hv, fun _ => by rw [hres]; rfl⟩
      · intro _
        rw [hres]
      · intro i _ hvt
        rw [hv] at hvt
        exact absurd hvt (by decide)
      · intro i _ hvt
        rw [hv] at hvt
        exact absurd hvt (by decide)
    · have hvt : o.verify b.block.header.Hash s = true := by
        cases hb : o.verify b.block.header.Hash s with
        | false => exact absurd hb hv
        | true => rfl
      cases hidx : o.sigIndex s with
      | none =>
          have hres := addPartialSig_eq_badIndex o b s hnf hvt hidx
          refine ⟨fun ht => absurd ht hn, ?_, ?_, ?_, ?_, fun ht => absurd ht hn⟩
          · intro _
            exact ⟨fun _ => Or.inr rfl, fun _ => by rw [hres]; rfl⟩
          · intro _
            rw [hres]
          · intro i _ _ hsome
            exact absurd hsome (by simp)
          · intro i _ _ hsome
            exact absurd hsome (by simp)
      | some i0 =>
          by_cases hlen : (alistInsert i0 s b.sigs).length < b.c.Threshold
          · have hres := addPartialSig_eq_below o b s i0 hnf hvt hidx hlen
            refine ⟨fun ht => absurd ht hn, ?_, ?_, ?_, ?_, fun ht => absurd ht hn⟩
            · intro _
              constructor
              · intro hf
                rw [hres] at hf
                simp [isOkE] at hf
              · intro hcase
                cases hcase with
                | inl hvf => rw [hvt] at hvf; exact absurd hvf (by decide)
                | inr hif => exact absurd hif (by simp)
            · intro herr
              rw [hres] at herr
              simp [isOkE] at herr
            · intro i _ _ hsome hmem
              have hi : i = i0 := (Option.some_inj.mp hsome).symm
              subst hi
              rw [hres]
              exact ⟨alistInsert_length_of_mem i s b.sigs hmem, rfl⟩
            · intro i _ _ hsome hnone hth
              have hi : i = i0 := (Option.some_inj.mp hsome).symm
              subst hi
              have := alistInsert_length_of_not_mem i s b.sigs hnone
              omega
          · have hlenGe : b.c.Threshold ≤ (alistInsert i0 s b.sigs).length := by
              omega
            have hsome : (o.recover b.block.header.Hash
                ((alistInsert i0 s b.sigs).map Prod.snd)).isSome = true := by
              apply hrec
              simpa using hlenGe
            obtain ⟨sig, hsig⟩ : ∃ sig, o.recover b.block.header.Hash
                ((alistInsert i0 s b.sigs).map Prod.snd) = some sig := by
              cases hr : o.recover b.block.header.Hash
                  ((alistInsert i0 s b.sigs).map Prod.snd) with
              | none => rw [hr] at hsome; exact absurd hsome (by decide)
              | some sig => exact ⟨sig, rfl⟩
            have hres := addPartialSig_eq_recover o b s i0 sig hnf hvt hidx hlen hsig
            refine ⟨fun ht => absurd ht hn, ?_, ?_, ?_, ?_, fun ht => absurd ht hn⟩
            · intro _
              constructor
              · intro hf
                rw [hres] at hf
                simp [isOkE] at hf
              · intro hcase
                cases hcase with
                | inl hvf => rw [hvt] at hvf; exact absurd hvf (by decide)
                | inr hif => exact absurd hif (by simp)
            · intro herr
              rw [hres] at herr
              simp [isOkE] at herr
            · intro i _ _ hsome2 hmem
              have hi : i = i0 := (Option.some_inj.mp hsome2).symm
              subst hi
              rw [hres]
              exact ⟨alistInsert_length_of_mem i s b.sigs hmem, rfl⟩
            · intro i _ _ hsome2 hnone hth
              have hi : i = i0 := (Option.some_inj.mp hsome2).symm
              subst hi
              exact ⟨sig, hsig, by rw [hres], by rw [hres]⟩

/-- Witness for C4: on a fresh storage with Threshold 1, one valid
partial signature notarizes the block. -/
theorem addPartialSig_spec_witness :
    ((newBlockStorage witnessConfig GenesisBlock).AddPartialSig
        witnessOracle [0]).1.notarized = true := by
  have h := addPartialSig_spec witnessOracle
    (newBlockStorage witnessConfig GenesisBlock) [0]
    (fun _ _ _ => rfl)
  obtain ⟨sig, _, hnot, _⟩ :=
    h.2.2.2.2.1 0 rfl rfl rfl (by decide) (by decide)
  exact hnot

theorem weightAt_isSome (weights : List Nat) (owner : Int)
    (h1 : 0 ≤ owner) (h2 : owner < (weights.length : Int)) :
    ∃ w, weightAt weights owner = some w := by
  have h3 : owner.toNat < weights.length := by omega
  exact ⟨weights.get ⟨owner.toNat, h3⟩, by rw [weightAt, dif_pos ⟨h1, h3⟩]⟩

theorem hnbLoop_total (weights : List Nat) :
    ∀ (l : List NotarizedBlock) (mw : Int) (mb : Option NotarizedBlock),
      (∀ n ∈ l, 0 ≤ n.Owner ∧ n.Owner < (weights.length : Int)) →
      hnbLoop weights l mw mb ≠ none
  | [], mw, mb, _ => by simp [hnbLoop]
  | n :: t, mw, mb, h => by
      obtain ⟨w, hw⟩ := weightAt_isSome weights n.Owner
        (h n (by simp)).1 (h n (by simp)).2
      have ht : ∀ n2 ∈ t, 0 ≤ n2.Owner ∧ n2.Owner < (weights.length : Int) :=
        fun n2 hn2 => h n2 (by simp [hn2])
      rw [hnbLoop]
      simp only [hw]
      by_cases hc : mw < (w : Int)
      · rw [if_pos hc]
        exact hnbLoop_total weights t (w : Int) (some n) ht
      · rw [if_neg hc]
        exact hnbLoop_total weights t mw mb ht

theorem hsLoop_total (o : TblsOracle) (weights : List Nat)
    (hsign : ∀ msg, (o.sign msg).isSome = true) :
    ∀ (l : List (String × BlockStorage)) (mw : Int) (ms : Option SignatureProposal),
      (∀ e ∈ l, 0 ≤ e.2.block.header.Owner ∧
          e.2.block.header.Owner < (weights.length : Int)) →
      hsLoop o weights l mw ms ≠ none
  | [], mw, ms, _ => by simp [hsLoop]
  | (k, st) :: t, mw, ms, h => by
      obtain ⟨w, hw⟩ := weightAt_isSome weights st.block.header.Owner
        (h (k, st) (by simp)).1 (h (k, st) (by simp)).2
      have ht : ∀ e ∈ t, 0 ≤ e.2.block.header.Owner ∧
          e.2.block.header.Owner < (weights.length : Int) :=
        fun e he => h e (by simp [he])
      rw [hsLoop]
      simp only [hw]
      by_cases hc : mw < (w : Int)
      · rw [if_pos hc]
        obtain ⟨sig, hsig⟩ : ∃ sig, o.sign st.block.header.Hash = some sig := by
          cases hs : o.sign st.block.header.Hash with
          | none =>
              have := hsign st.block.header.Hash
              rw [hs] at this
              exact absurd this (by decide)
          | some sig => exact ⟨sig, rfl⟩
        rw [BlockStorage.mkSignatureProposal]
        simp only [hsig]
        exact hsLoop_total o weights hsign t (w : Int) _ ht
      · rw [if_neg hc]
        exact hsLoop_total o weights hsign t mw ms ht

theorem hsLoop_round (o : TblsOracle) (weights : List Nat) (rnd : Int) :
    ∀ (l : List (String × BlockStorage)) (mw : Int) (ms : Option SignatureProposal),
      (∀ e ∈ l, e.2.block.header.Round = rnd) →
      (∀ sp, ms = some sp → sp.Block.header.Round = rnd) →
      ∀ (mw2 : Int) (ms2 : Option SignatureProposal),
        hsLoop o weights l mw ms = some (mw2, ms2) →
        ∀ sp, ms2 = some sp → sp.Block.header.Round = rnd
  | [], mw, ms, _, hms, mw2, ms2, heq, sp, hsp => by
      rw [hsLoop] at heq
      cases heq
      exact hms sp hsp
  | (k, st) :: t, mw, ms, hl, hms, mw2, ms2, heq, sp, hsp => by
      rw [hsLoop] at heq
      have ht : ∀ e ∈ t, e.2.block.header.Round = rnd :=
        fun e he => hl e (by simp [he])
      cases hwa : weightAt weights st.block.header.Owner with
      | none =>
          simp only [hwa] at heq
          exact absurd heq (by simp)
      | some w =>
          simp only [hwa] at heq
          by_cases hc : mw < (w : Int)
          · rw [if_pos hc] at heq
            cases hmk : st.mkSignatureProposal o with
            | none =>
                simp only [hmk] at heq
                exact absurd heq (by simp)
            | some sp2 =>
                simp only [hmk] at heq
                have hsp2 : sp2.Block.header.Round = rnd := by
                  rw [BlockStorage.mkSignatureProposal] at hmk
                  cases hs : o.sign st.block.header.Hash with
                  | none => simp [hs] at hmk
                  | some sig =>
                      simp only [hs] at hmk
                      cases hmk
                      exact hl (k, st) (by simp)
                exact hsLoop_round o weights rnd t (w : Int) (some sp2) ht
                  (fun sp3 hsp3 => Option.some_inj.mp hsp3 ▸ hsp2)
                  mw2 ms2 heq sp hsp
          · rw [if_neg hc] at heq
            exact hsLoop_round o weights rnd t mw ms ht hms mw2 ms2 heq sp hsp

theorem storeSignatureProposal_total (o : TblsOracle) (r : RoundStorage)
    (s : SignatureProposal) (h : s.Block.header.Round = r.Round) :
    r.StoreSignatureProposal o s ≠ none := by
  rw [RoundStorage.StoreSignatureProposal, if_neg (by simp [h])]
  cases hlk : alistLookup s.Block.header.Hash r.blocks with
  | none => simp [hlk]
  | some bst =>
      cases hres : (bst.AddPartialSig o s.sigShare).2 with
      | error e => simp [hlk, hres]
      | ok onb =>
          cases onb with
          | none => simp [hlk, hres]
          | some nb => simp [hlk, hres]

/-- C10: the weight lookups of HighestNotarizedBlock and
HighestSignature index the round weight array, of length BlockMakerNb,
by each stored block Owner field; both are total whenever every stored
owner is in [0, len(weights)) (with a working Sign and matching rounds
for the signing path), and a storage containing the genesis block with
Owner -1 makes both lookups panic. -/
theorem weight_lookup_bounds :
    (∀ (c : Config) (round randomness : Int),
        (newRoundStorage c round randomness).weights.length = c.BlockMakerNb) ∧
    (∀ r : RoundStorage,
        (∀ n ∈ r.notarizeds, 0 ≤ n.Owner ∧ n.Owner < (r.weights.length : Int)) →
        r.HighestNotarizedBlock ≠ none) ∧
    (∀ (o : TblsOracle) (r : RoundStorage),
        (∀ e ∈ r.blocks, 0 ≤ e.2.block.header.Owner ∧
            e.2.block.header.Owner < (r.weights.length : Int)) →
        (∀ msg, (o.sign msg).isSome = true) →
        (∀ e ∈ r.blocks, e.2.block.header.Round = r.Round) →
        r.HighestSignature o ≠ none) ∧
    (badRoundStorage.HighestNotarizedBlock = none ∧
      badRoundStorage.HighestSignature witnessOracle = none) := by
  refine ⟨?_, ?_, ?_, ?_, ?_⟩
  · intro c round randomness
    simp [newRoundStorage, Weights, Permutation, goPerm_length]
  · intro r h
    rw [RoundStorage.HighestNotarizedBlock]
    cases hl : hnbLoop r.weights r.notarizeds r.maxWeightNotarized none with
    | none => exact absurd hl (hnbLoop_total r.weights r.notarizeds _ none h)
    | some p => simp
  · intro o r h hsign hrnd
    rw [RoundStorage.HighestSignature]
    cases hl : hsLoop o r.weights r.blocks r.maxWeightSig none with
    | none => exact absurd hl (hsLoop_total o r.weights hsign r.blocks _ none h)
    | some p =>
        obtain ⟨mw2, ms2⟩ := p
        simp only
        cases hms : ms2 with
        | none => simp
        | some sp =>
            have hround : sp.Block.header.Round = r.Round := by
              apply hsLoop_round o r.weights r.Round r.blocks r.maxWeightSig none
                hrnd (fun sp2 hsp2 => by cases hsp2) mw2 ms2 hl sp hms
            have := storeSignatureProposal_total o
              { r with maxWeightSig := mw2 } sp (by simpa using hround)
            cases hss : RoundStorage.StoreSignatureProposal o
                { r with maxWeightSig := mw2 } sp with
            | none => exact absurd hss this
            | some q => simp [hss]
  · decide
  · decide

/-- Witness for C10: with in-range owners both operations succeed. -/
theorem weight_lookup_bounds_witness :
    goodRoundStorage.HighestNotarizedBlock ≠ none ∧
    goodRoundStorage.HighestSignature witnessOracle ≠ none :=
  ⟨weight_lookup_bounds.2.1 goodRoundStorage (by decide),
    weight_lookup_bounds.2.2.1 witnessOracle goodRoundStorage (by decide)
      (fun _ => rfl) (by decide)⟩

/-- C6: at the notarizer, a signature proposal with round below
current_round - 1 is dropped unchanged, one above current_round is
buffered in tmpSigs under its round, and one at current_round whose
round storage exists is routed to that storage StoreSignatureProposal. -/
theorem newSignatureProposal_routing (o : TblsOracle) (m : Notarizer)
    (s : SignatureProposal) :
    (s.Block.header.Round < m.round - 1 →
      m.NewSignatureProposal o s = some (m, [])) ∧
    (s.Block.header.Round > m.round →
      m.NewSignatureProposal o s = some
        ({ m with tmpSigs := alistAppend s.Block.header.Round s m.tmpSigs }, [])) ∧
    (∀ rs : RoundStorage, s.Block.header.Round = m.round →
      alistLookup s.Block.header.Round m.rounds = some rs →
      m.NewSignatureProposal o s =
        (match rs.StoreSignatureProposal o s with
          | none => none
          | some (rs2, emitted) =>
              some ({ m with rounds := alistInsert s.Block.header.Round rs2 m.rounds },
                emitted))) := by
  refine ⟨?_, ?_, ?_⟩
  · intro h
    rw [Notarizer.NewSignatureProposal, if_neg (by omega), if_pos (by omega)]
  · intro h
    rw [Notarizer.NewSignatureProposal, if_pos h]
  · intro rs heq hlk
    rw [Notarizer.NewSignatureProposal, if_neg (by omega), if_neg (by omega)]
    simp only [hlk]

/-- Witness for C6: a round-2 proposal at a round-5 notarizer is dropped. -/
theorem newSignatureProposal_routing_witness :
    witnessNotarizer.NewSignatureProposal witnessOracle witnessSigProposalOld =
      some (witnessNotarizer, []) :=
  (newSignatureProposal_routing witnessOracle witnessNotarizer
    witnessSigProposalOld).1 (by decide)

/-- C7 as stated is false: two configs that differ in Seed give beacons
with identical generator state, because NewBeaconProcess seeds from the
package constant 1234567890 and never reads Config.Seed. -/
theorem beacon_ignores_config_seed :
    ({ witnessConfig with Seed := 1 } : Config).Seed ≠
      ({ witnessConfig with Seed := 2 } : Config).Seed ∧
    NewBeaconProcess { witnessConfig with Seed := 1 } =
      { c := { witnessConfig with Seed := 1 }, r := mkRng seedConst, round := 0 } ∧
    (NewBeaconProcess { witnessConfig with Seed := 1 }).r =
      (NewBeaconProcess { witnessConfig with Seed := 2 }).r ∧
    (NewBeaconProcess { witnessConfig with Seed := 1 }).r ≠ mkRng 1 := by
  refine ⟨by decide, rfl, rfl, by decide⟩

/-- C7 amended: the beacon PRNG state is seeded from the package
constant 1234567890 for every config, and the round counter starts
at 0. -/
theorem beacon_seeded_from_constant (conf : Config) :
    (NewBeaconProcess conf).r = mkRng seedConst ∧
    (NewBeaconProcess conf).round = 0 ∧
    seedConst = 1234567890 :=
  ⟨rfl, rfl, rfl⟩

theorem purge_frame (f : Finalizer) (s : Int) (g : Finalizer)
    (h : f.purge s = some g) : g.c = f.c ∧ g.chain = f.chain ∧ g.round = f.round := by
  rw [Finalizer.purge] at h
  cases hlk : alistLookup (s - 1) f.notarized with
  | none => simp [hlk] at h
  | some prevBlocks =>
      simp only [hlk] at h
      by_cases hlen : prevBlocks.length ≤ 1
      · rw [if_pos hlen] at h
        cases h
        exact ⟨rfl, rfl, rfl⟩
      · rw [if_neg hlen] at h
        cases hlk2 : alistLookup s f.notarized with
        | none => simp [hlk2] at h
        | some startBlocks =>
            simp only [hlk2] at h
            by_cases href : (prevBlocks.filter (fun ib =>
                startBlocks.any (fun jb =>
                  ib.Block.header.Hash == jb.Block.header.PrvHash))).length > 1
            · rw [if_pos href] at h
              exact absurd h (by simp)
            · rw [if_neg href] at h
              cases hh : (prevBlocks.filter (fun ib =>
                  startBlocks.any (fun jb =>
                    ib.Block.header.Hash == jb.Block.header.PrvHash))).head? with
              | none => simp [hh] at h
              | some fb =>
                  simp only [hh] at h
                  cases h
                  exact ⟨rfl, rfl, rfl⟩

/-- C9: finalize(round) for round <= 1 only advances the round cursor,
leaving chain and notarized map untouched; for round >= 2 a panic-free
run purges round - 1 (which touches neither chain nor cursor), appends
the head block stored at round - 2 to the chain, deletes round - 2 from
the map, and advances the cursor by one. -/
theorem finalize_spec :
    (∀ (f : Finalizer) (round : Int), round ≤ 1 →
        f.finalize round = some { f with round := f.round + 1 }) ∧
    (∀ (f : Finalizer) (round : Int) (f2 : Finalizer), 2 ≤ round →
        f.finalize round = some f2 →
        ∃ (g : Finalizer) (l : List NotarizedBlock) (b : NotarizedBlock) (ch2 : Chain),
          f.purge (round - 1) = some g ∧
          g.c = f.c ∧ g.chain = f.chain ∧ g.round = f.round ∧
          alistLookup (round - 2) g.notarized = some l ∧
          l.head? = some b ∧
          f.chain.Append b.Block = some ch2 ∧
          ch2.all = f.chain.all ++ [b.Block] ∧
          f2 = { g with
            chain := ch2
            notarized := alistErase (round - 2) g.notarized
            round := f.round + 1 }) := by
  constructor
  · intro f round h
    rw [Finalizer.finalize, if_pos (by omega)]
  · intro f round f2 hge h
    rw [Finalizer.finalize, if_neg (by omega)] at h
    cases hp : f.purge (round - 1) with
    | none => simp [hp] at h
    | some g =>
        simp only [hp] at h
        obtain ⟨hc, hchain, hround⟩ := purge_frame f (round - 1) g hp
        cases hlk : alistLookup (round - 2) g.notarized with
        | none => simp [hlk] at h
        | some l =>
            simp only [hlk] at h
            cases hh : l.head? with
            | none => simp [hh] at h
            | some b =>
                simp only [hh] at h
                cases hap : g.chain.Append b.Block with
                | none => simp [hap] at h
                | some ch2 =>
                    simp only [hap] at h
                    cases h
                    refine ⟨g, l, b, ch2, rfl, hc, hchain, hround, hlk, hh,
                      by rw [← hchain]; exact hap,
                      by rw [chainAppend_all g.chain b.Block ch2 hap, hchain],
                      by rw [hround]⟩

/-- Witness for C9: a fresh finalizer at round 1 only advances its
cursor; at round 2 it appends the genesis block and deletes round 0. -/
theorem finalize_spec_witness :
    (witnessFinalizer.finalize 1 =
      some { witnessFinalizer with round := witnessFinalizer.round + 1 }) ∧
    (∃ (g : Finalizer) (l : List NotarizedBlock) (b : NotarizedBlock) (ch2 : Chain),
      witnessFinalizer.purge (2 - 1) = some g ∧
      g.c = witnessFinalizer.c ∧ g.chain = witnessFinalizer.chain ∧
      g.round = witnessFinalizer.round ∧
      alistLookup (2 - 2) g.notarized = some l ∧
      l.head? = some b ∧
      witnessFinalizer.chain.Append b.Block = some ch2 ∧
      ch2.all = witnessFinalizer.chain.all ++ [b.Block] ∧
      witnessFinalizer2 = { g with
        chain := ch2
        notarized := alistErase (2 - 2) g.notarized
        round := witnessFinalizer.round + 1 }) :=
  ⟨finalize_spec.1 witnessFinalizer 1 (by decide),
    finalize_spec.2 witnessFinalizer 2 witnessFinalizer2 (by decide) (by decide)⟩

/-- C2: at finalizerC2 the chain sums are 5 for nbA2 and 4 for nbB2,
so the specified maximization picks nbA2; the implementation, whose
early-return guard fires whenever the previous round exists, compares
only the single-round weights 2 and 3 and picks nbB2. -/
theorem highestChainHead_single_weight_bug :
    finalizerC2.HighestChainHead 2 = some (Except.ok nbB2) ∧
    specHighestChainHead finalizerC2 2 = some (Except.ok nbA2) ∧
    specChainWeight finalizerC2 0 3 nbA2 = some 5 ∧
    specChainWeight finalizerC2 0 3 nbB2 = some 4 ∧
    nbA2 ≠ nbB2 :=
  ⟨rfl, rfl, rfl, rfl, by decide⟩

/-- C3: the claim is false on the code.  binary.Write rejects the plain
Go int fields Owner and Round, so the digest input is only
PrvHash ++ Root ++ PrvSig: headers that differ only in Round (hdrH2) or
only in Owner (hdrH3) digest identical input and hash identically,
whereas the intended input of the spec (specHashInput, with the two
big-endian 64-bit fields) does distinguish them. -/
theorem headerHash_ignores_owner_round :
    hdrH1 ≠ hdrH2 ∧ hdrH1 ≠ hdrH3 ∧
    hdrH1.Hash = hdrH2.Hash ∧ hdrH1.Hash = hdrH3.Hash ∧
    hashInput hdrH1 = hashInput hdrH2 ∧ hashInput hdrH1 = hashInput hdrH3 ∧
    specHashInput hdrH1 ≠ specHashInput hdrH2 ∧
    specHashInput hdrH1 ≠ specHashInput hdrH3 ∧
    (∀ h : BlockHeader, h.Hash = hexEncode (sha256 (hashInput h))) :=
  ⟨by decide, by decide, rfl, rfl, rfl, rfl, by decide, by decide, fun _ => rfl⟩

/-- C8, counterexample: the genesis Root and PrvHash literals are
different hex strings, and neither equals sha256("hello world"). -/
theorem genesis_root_prvhash_differ :
    GenesisBlock.header.Root ≠ GenesisBlock.header.PrvHash ∧
    GenesisBlock.header.PrvHash ≠ sha256Hex "hello world" ∧
    GenesisBlock.header.Root ≠ sha256Hex "hello world" := by
  refine ⟨by decide, by decide, by decide⟩

/-- C8 amended: the genesis block has Round 0, Owner -1, the fixed Root
literal 6afbc27f..., PrvHash equal to sha256 of the newline-terminated
"hello world" (the output of echo), PrvSig the ASCII bytes of
3605ff73..., and Blob "Hello Genesis"; all fixed literals, so equal
genesis headers hash identically on every node. -/
theorem genesis_block_fields :
    GenesisBlock.header.Round = 0 ∧
    GenesisBlock.header.Owner = -1 ∧
    GenesisBlock.header.Root =
      "6afbc27f4ae8951a541be53038ca20d3a9f18f60a38b1dc2cd48a46ff5d26ace" ∧
    GenesisBlock.header.PrvHash = sha256Hex "hello world\n" ∧
    GenesisBlock.header.PrvSig =
      strBytes "3605ff73b6faec27aa78e311603e9fe2ef35bad82ccf46fc707814bfbdcc6f9e" ∧
    GenesisBlock.Blob = strBytes "Hello Genesis" ∧
    (∀ b : Block, b = GenesisBlock → b.header.Hash = GenesisBlock.header.Hash) :=
  ⟨rfl, rfl, rfl, by decide, rfl, rfl, fun b hb => by rw [hb]⟩

/-- Witness for the genesis-field theorem: its hash-stability clause
applied to the genesis block itself. -/
theorem genesis_block_fields_witness :
    GenesisBlock = GenesisBlock ∧
    GenesisBlock.header.Hash = GenesisBlock.header.Hash :=
  ⟨rfl, genesis_block_fields.2.2.2.2.2.2 GenesisBlock rfl⟩

end Dfinity
